import Mathlib

/-!
# Scheduler (api/scheduler/scheduler.go)

A shallow embedding of the periodic job scheduler: Go error values with their
unwrap chains, the decimal conversions used for job identifiers, the trigger
engine the scheduler drives, and the three entry points `StartJobEvery`,
`StopJob` and `Shutdown` together with the job wrapper and the per-job
watcher goroutine.
-/

namespace scheduler

/-! ## Go error values -/

/-- Go error values as far as `errors.Is`, `errors.As` and `Error()` can tell them
apart: the sentinel `context.Canceled`, a leaf error carrying only a message,
an error wrapping a cause that it exposes through `Unwrap` (`errors.Wrap`,
`errors.Wrapf`), and a `*PermanentError` (scheduler.go:20-22), which has no
`Unwrap` method and whose field `err` holds a cause (`permanent`) or is nil
(`permanentNil`).  A nil error is `none : Option GoError`.  Errors with several
causes (`errors.Join`), error types with their own `Is` or `As` method and a
nil `*PermanentError` pointer, which NewPermanentError never returns, are
outside this model. -/
inductive GoError where
  | canceled : GoError
  | leaf (msg : String) : GoError
  | wrap (msg : String) (cause : GoError) : GoError
  | permanent (err : GoError) : GoError
  | permanentNil : GoError
  deriving DecidableEq, Repr

/-- NewPermanentError (scheduler.go:24-26): `&PermanentError{err: err}` for any
error value `err`, nil included. -/
def NewPermanentError (err : Option GoError) : GoError :=
  match err with
  | some cause => GoError.permanent cause
  | none => GoError.permanentNil

/-- The `Error()` string of an error.  For a `*PermanentError` it is
`e.err.Error()` (scheduler.go:28-30), the message of the wrapped error; with a
nil `err` field that call dereferences nil and panics: `none`. -/
def GoError.Error : GoError → Option String
  | GoError.canceled => some "context canceled"
  | GoError.leaf msg => some msg
  | GoError.wrap msg cause =>
    match cause.Error with
    | some text => some (msg ++ ": " ++ text)
    | none => none
  | GoError.permanent err => err.Error
  | GoError.permanentNil => none

/-- The call `log.Error().Err(err)` of zerolog on a non-nil error, at an enabled
level: the event renders the error through `err.Error()`.  `some ()` when the
call returns, `none` when `Error()` panics. -/
def logErr (err : GoError) : Option Unit :=
  match err.Error with
  | some _ => some ()
  | none => none

/-- The call `errors.As(err, &permErr)` with `permErr : *PermanentError`: walk the
`Unwrap` chain and return the first `*PermanentError` on it.  A `*PermanentError`
is matched itself; nothing below it is reachable because it has no `Unwrap`. -/
def asPermanentError : GoError → Option GoError
  | GoError.canceled => none
  | GoError.leaf _ => none
  | GoError.wrap _ cause => asPermanentError cause
  | GoError.permanent err => some (GoError.permanent err)
  | GoError.permanentNil => some GoError.permanentNil

/-- The walk of `errors.Is(err, context.Canceled)` along the `Unwrap` chain of a
non-nil error: true when the sentinel is met.  A `*PermanentError` ends the
walk, since it has no `Unwrap`. -/
def onCanceledChain : GoError → Bool
  | GoError.canceled => true
  | GoError.leaf _ => false
  | GoError.wrap _ cause => onCanceledChain cause
  | GoError.permanent _ => false
  | GoError.permanentNil => false

/-- The call `errors.Is(err, context.Canceled)`; false for a nil error. -/
def isContextCanceled : Option GoError → Bool
  | none => false
  | some err => onCanceledChain err

/-! ## strconv -/

/-- Smallest value of the Go `int` type (64-bit platform). -/
def minInt : Int := -(2 ^ 63)

/-- Largest value of the Go `int` type (64-bit platform). -/
def maxInt : Int := 2 ^ 63 - 1

/-- Largest value of `uint64`, the accumulator type of `strconv.ParseUint`. -/
def maxUint64 : Nat := 2 ^ 64 - 1

/-- The two `strconv` failures, `ErrSyntax` and `ErrRange`. -/
inductive NumErr where
  | invalid : NumErr
  | outOfRange : NumErr
  deriving DecidableEq, Repr

/-- Modelled from the spec: the digit loop of `strconv.ParseUint` in base 10 (Go
standard library, not under src/), which StopJob reaches through
`strconv.Atoi` to parse an identifier.  Each character must be one of `0`..`9`
(else a syntax error), and the accumulated value must stay within `uint64`
(else a range error); the first failure met ends the loop. -/
def parseUintLoop : List Char → Nat → Except NumErr Nat
  | [], n => Except.ok n
  | c :: cs, n =>
    if '0' ≤ c ∧ c ≤ '9' then
      if n * 10 + (c.toNat - '0'.toNat) > maxUint64 then Except.error NumErr.outOfRange
      else parseUintLoop cs (n * 10 + (c.toNat - '0'.toNat))
    else Except.error NumErr.invalid

/-- Modelled from the spec: `strconv.ParseInt(s, 10, 0)` on the characters of `s`
(Go standard library, not under src/): an empty string is a syntax error, one
leading `+` or `-` is taken off, the rest goes through `strconv.ParseUint`
(empty is a syntax error, else the digit loop), and the signed value must fit
the `int` type. -/
def parseInt (cs : List Char) : Except NumErr Int :=
  match cs with
  | [] => Except.error NumErr.invalid
  | c :: rest =>
    let neg : Bool := c = '-'
    let body := if c = '+' ∨ c = '-' then rest else c :: rest
    if body.isEmpty then Except.error NumErr.invalid
    else
      match parseUintLoop body 0 with
      | Except.error e => Except.error e
      | Except.ok un =>
        if neg = false ∧ un ≥ 2 ^ 63 then Except.error NumErr.outOfRange
        else if neg = true ∧ un > 2 ^ 63 then Except.error NumErr.outOfRange
        else Except.ok (if neg then -(un : Int) else (un : Int))

/-- Modelled from the spec: `strconv.Atoi` (Go standard library, not under src/).
The error is the `*NumError` of the library, which wraps `ErrSyntax` or
`ErrRange`. -/
def Atoi (s : String) : Except GoError Int :=
  match parseInt s.data with
  | Except.ok n => Except.ok n
  | Except.error NumErr.invalid =>
    Except.error (GoError.wrap ("strconv.Atoi: parsing " ++ s) (GoError.leaf "invalid syntax"))
  | Except.error NumErr.outOfRange =>
    Except.error (GoError.wrap ("strconv.Atoi: parsing " ++ s) (GoError.leaf "value out of range"))

/-- Modelled from the spec: the digit loop of `strconv.FormatInt` in base 10 (Go
standard library, not under src/): the decimal digits of `u`, most significant
first, produced from the least significant end.  `fuel` bounds the number of
digits; `u + 1` always suffices. -/
def formatBits : Nat → Nat → List Char → List Char
  | 0, _, acc => acc
  | fuel + 1, u, acc =>
    if u < 10 then Char.ofNat (u + '0'.toNat) :: acc
    else formatBits fuel (u / 10) (Char.ofNat (u % 10 + '0'.toNat) :: acc)

/-- Modelled from the spec: `strconv.Itoa` (Go standard library, not under src/):
the decimal text of an `int`, with a leading `-` for a negative value. -/
def Itoa (i : Int) : String :=
  if i < 0 then String.mk ('-' :: formatBits (i.natAbs + 1) i.natAbs [])
  else String.mk (formatBits (i.natAbs + 1) i.natAbs [])

/-- The numeric value of a decimal digit character. -/
def digitValue (c : Char) : Nat := c.toNat - 48

/-- The reading of "parses as a decimal integer identifier" taken from the spec's
words, independent of the parsing loop: an optional sign, then at least one
decimal digit and nothing else, denoting a value of the `int` type. -/
def isDecimalIdentifier (s : String) : Bool :=
  let neg : Bool := s.data.head? = some '-'
  let body := if s.data.head? = some '+' ∨ s.data.head? = some '-' then s.data.tail else s.data
  let value : Nat := Nat.ofDigits 10 (body.reverse.map digitValue)
  !body.isEmpty && body.all Char.isDigit &&
    (if neg then decide (value ≤ 2 ^ 63) else decide (value < 2 ^ 63))

/-- The value the digit loop accumulates, without its checks. -/
def accumulate (n : Nat) (cs : List Char) : Nat :=
  cs.foldl (fun a c => a * 10 + digitValue c) n

/-- Whether a parse result is a value. -/
def isOk {ε α : Type} : Except ε α → Bool
  | Except.ok _ => true
  | Except.error _ => false

/-! ## Cancellation contexts -/

/-- The effect of calling the `cancel` function returned by
`context.WithCancel` on the set `done` of contexts whose `Done` channel is
closed.  A context is named by the number it was created under.  Cancelling a
context that is already cancelled changes nothing. -/
def cancelCtx (ctx : Nat) (done : List Nat) : List Nat :=
  if ctx ∈ done then done else ctx :: done

/-! ## Trigger engine -/

/-- The closure `jobFn` built by StartJobEvery (scheduler.go:99-114).  It
captures the user's `job` function and the `cancel` function of the job's
context.  `job n` is what the user's function returns on its invocation number
`n` (counted from 0); `none` is a nil error. -/
structure FuncJob where
  job : Nat → Option GoError
  cancel : Nat

/-- Body of the closure `jobFn` (scheduler.go:99-114), run on the invocation
number `n` of the job.  A nil result returns at once.  When `errors.As` finds a
`*PermanentError` on the result's chain, that error is logged and then `cancel`
is called; when the logging call panics (recovered by the engine's
`cron.Recover` chain) the closure ends there and `cancel` is not reached.  Any
other error is only logged.  The result is the new set of cancelled contexts. -/
def FuncJob.Run (j : FuncJob) (n : Nat) (done : List Nat) : List Nat :=
  match j.job n with
  | none => done
  | some err =>
    match asPermanentError err with
    | some permErr =>
      match logErr permErr with
      | none => done
      | some _ => cancelCtx j.cancel done
    | none =>
      match logErr err with
      | none => done
      | some _ => done

/-- An entry of the trigger engine: identifier, interval and job. -/
structure Entry where
  ID : Int
  Schedule : Int
  Job : FuncJob

/-- Modelled from the spec: the trigger engine (`*cron.Cron` of robfig/cron, not
under src/), a black box with `start`, `stop`, `schedule`, `remove` and
`entries`.  It holds its entries, whether it is running, and the last
identifier it assigned. -/
structure Cron where
  entries : List Entry
  running : Bool
  nextID : Int

/-- Modelled from the spec: `cron.New`, an engine with no entry, not yet
started. -/
def Cron.New : Cron :=
  { entries := [], running := false, nextID := 0 }

/-- Modelled from the spec: `start()` of the trigger engine. -/
def Cron.Start (c : Cron) : Cron :=
  { c with running := true }

/-- Modelled from the spec: `stop()` of the trigger engine; no further tick
fires.  The completion signal it returns is an input of Shutdown. -/
def Cron.Stop (c : Cron) : Cron :=
  { c with running := false }

/-- Modelled from the spec: `schedule(interval, callback) -> entryID` of the
trigger engine.  The identifier is the next value of a counter, so it
identifies one job for the job's lifetime. -/
def Cron.Schedule (c : Cron) (schedule : Int) (cmd : FuncJob) : Int × Cron :=
  (c.nextID + 1,
   { c with nextID := c.nextID + 1,
            entries := c.entries ++ [{ ID := c.nextID + 1, Schedule := schedule, Job := cmd }] })

/-- Modelled from the spec: `remove(entryID)` of the trigger engine. -/
def Cron.Remove (c : Cron) (id : Int) : Cron :=
  { c with entries := c.entries.filter fun e => e.ID ≠ id }

/-- Modelled from the spec: `entries()` of the trigger engine. -/
def Cron.Entries (c : Cron) : List Entry :=
  c.entries

/-! ## Scheduler -/

/-- The `Scheduler` struct (scheduler.go:14-18): the engine handle `crontab`
(`none` is the nil pointer) and the map `activeJobs` from entry identifier to
the `cancel` function of the job's context.  The mutex is left out: every
operation below is one atomic step. -/
structure Scheduler where
  crontab : Option Cron
  activeJobs : Int → Option Nat

/-- The scheduler together with the rest of the program state its methods act
on: the set `done` of cancelled contexts, the number `nextCtx` of contexts
created so far, the parked watcher goroutines (scheduler.go:122-126), each
holding its context and its entry identifier, and the record `invoked` of the
job invocations begun so far (newest first), kept for stating properties. -/
structure World where
  s : Scheduler
  done : List Nat
  nextCtx : Nat
  watchers : List (Nat × Int)
  invoked : List Int

/-- NewScheduler (scheduler.go:32-49): a started engine and an empty map.  The
goroutine that waits for the parent context does nothing but call Shutdown;
the step relation below offers Shutdown at any moment. -/
def NewScheduler : World :=
  { s := { crontab := some Cron.New.Start, activeJobs := fun _ => none },
    done := [], nextCtx := 0, watchers := [], invoked := [] }

/-- The loop of Shutdown over the engine's entries (scheduler.go:62-66): for each
entry whose identifier is in `activeJobs`, call its `cancel`. -/
def cancelEntries (activeJobs : Int → Option Nat) : List Entry → List Nat → List Nat
  | [], done => done
  | job :: rest, done =>
    match activeJobs job.ID with
    | some cancel => cancelEntries activeJobs rest (cancelCtx cancel done)
    | none => cancelEntries activeJobs rest done

/-- Shutdown (scheduler.go:52-74).  `stopErr` is `ctx.Err()` of the completion
context returned by the engine's `Stop`, read after that context is done.
Returns the new state and the returned error (`none` is nil). -/
def Shutdown (w : World) (stopErr : Option GoError) : World × Option GoError :=
  match w.s.crontab with
  | none => (w, none)
  | some crontab =>
    let stopped := crontab.Stop
    let done := cancelEntries w.s.activeJobs stopped.Entries w.done
    let err := stopErr
    ({ w with s := { w.s with crontab := some stopped }, done := done },
     if isContextCanceled err then none else err)

/-- StopJob (scheduler.go:77-91).  Returns the new state and the returned
error (`none` is nil). -/
def StopJob (w : World) (jobID : String) : World × Option GoError :=
  match Atoi jobID with
  | Except.error err =>
    (w, some (GoError.wrap ("failed convert jobID " ++ jobID.quote ++ " to int") err))
  | Except.ok id =>
    match w.s.activeJobs id with
    | some cancel => ({ w with done := cancelCtx cancel w.done }, none)
    | none => (w, none)

/-- StartJobEvery (scheduler.go:96-129).  Creates the job's context, schedules
the closure `jobFn`, stores `cancel` in `activeJobs`, parks the watcher
goroutine and returns the text of the entry identifier.  With a nil engine
handle the call `s.crontab.Schedule` dereferences nil and the function does not
return: `none`. -/
def StartJobEvery (w : World) (duration : Int) (job : Nat → Option GoError) :
    Option (String × World) :=
  match w.s.crontab with
  | none => none
  | some crontab =>
    let cancel := w.nextCtx
    let jobFn : FuncJob := { job := job, cancel := cancel }
    let (entryID, crontab) := crontab.Schedule duration jobFn
    some (Itoa entryID,
      { s := { crontab := some crontab,
               activeJobs := fun k => if k = entryID then some cancel else w.s.activeJobs k },
        done := w.done,
        nextCtx := w.nextCtx + 1,
        watchers := (cancel, entryID) :: w.watchers,
        invoked := w.invoked })

/-- The watcher goroutine of a job (scheduler.go:122-126): once its context is
done it removes the entry from the engine and ends.  `none` when no such
watcher is parked or its context is not yet done. -/
def watcher (w : World) (ctx : Nat) (entryID : Int) : Option World :=
  if (ctx, entryID) ∈ w.watchers ∧ ctx ∈ w.done then
    match w.s.crontab with
    | none => none
    | some crontab =>
      some { w with s := { w.s with crontab := some (crontab.Remove entryID) },
                    watchers := w.watchers.erase (ctx, entryID) }
  else none

/-- One tick of the running engine for the entry `id`: a new invocation of the
entry's job begins and runs to its end.  `none` when the engine is not running
or holds no entry `id`. -/
def tick (w : World) (id : Int) : Option World :=
  match w.s.crontab with
  | none => none
  | some crontab =>
    if crontab.running then
      match crontab.Entries.find? fun e => e.ID = id with
      | none => none
      | some e =>
        some { w with done := e.Job.Run (w.invoked.count id) w.done,
                      invoked := id :: w.invoked }
    else none

/-- The steps of an execution. -/
inductive Action where
  | start (duration : Int) (job : Nat → Option GoError) : Action
  | stop (jobID : String) : Action
  | shutdown (stopErr : Option GoError) : Action
  | tick (id : Int) : Action
  | watch (ctx : Nat) (entryID : Int) : Action

/-- The step relation as a function: the state after one step, `none` when the
step cannot be taken. -/
def step (w : World) : Action → Option World
  | Action.start duration job => (StartJobEvery w duration job).map Prod.snd
  | Action.stop jobID => some (StopJob w jobID).1
  | Action.shutdown stopErr => some (Shutdown w stopErr).1
  | Action.tick id => tick w id
  | Action.watch ctx entryID => watcher w ctx entryID

/-- Run a list of steps from a state. -/
def run (w : World) : List Action → Option World
  | [] => some w
  | a :: rest =>
    match step w a with
    | none => none
    | some w1 => run w1 rest

/-- The states the scheduler can reach from NewScheduler. -/
def Reachable (w : World) : Prop :=
  ∃ acts, run NewScheduler acts = some w

/-- The entry identifiers the engine of a state holds (none for a nil handle). -/
def engineIDs (w : World) : List Int :=
  match w.s.crontab with
  | none => []
  | some crontab => crontab.Entries.map Entry.ID

/-! ## Predicates and sample states used by the theorems -/

/-- Whether a job result is a permanent failure: non-nil, with a
`*PermanentError` found by `errors.As`. -/
def isPermanentFailure (res : Option GoError) : Bool :=
  (res.bind asPermanentError).isSome

/-- Whether a job result is a permanent failure whose `*PermanentError` can be
logged, that is, whose `Error()` returns. -/
def isLoggablePermanentFailure (res : Option GoError) : Bool :=
  match res.bind asPermanentError with
  | some permErr => (logErr permErr).isSome
  | none => false

/-- The invariant of the reachable states: the engine handle is set, every
identifier in the engine or held by a watcher has been assigned, a parked
watcher's context is the one registered for its identifier, and a registered
context is cancelled or its entry is still in the engine. -/
def Inv (w : World) : Prop :=
  ∃ c, w.s.crontab = some c ∧
    (∀ e ∈ c.entries, e.ID ≤ c.nextID) ∧
    (∀ p ∈ w.watchers, p.2 ≤ c.nextID ∧ w.s.activeJobs p.2 = some p.1) ∧
    (∀ id ctx, w.s.activeJobs id = some ctx → ctx ∈ w.done ∨ id ∈ c.entries.map Entry.ID)

/-- The entry `id` has been assigned by the engine and is no longer in it. -/
def Removed (w : World) (id : Int) : Prop :=
  ∃ c, w.s.crontab = some c ∧ id ≤ c.nextID ∧ id ∉ c.entries.map Entry.ID

/-- The invariant of the parked watchers: each waits on a context that has been
created, and no watcher is listed twice. -/
def WatchInv (w : World) : Prop :=
  (∀ p ∈ w.watchers, p.1 < w.nextCtx) ∧ w.watchers.Nodup

/-- The watcher of the context `ctx` and entry `id` has ended: the context has
been created and no such watcher is parked. -/
def Retired (w : World) (ctx : Nat) (id : Int) : Prop :=
  ctx < w.nextCtx ∧ (ctx, id) ∉ w.watchers

/-- A job that fails transiently on its first run, succeeds on its second and
fails permanently on its third. -/
def demoJob : Nat → Option GoError := fun n =>
  if n = 0 then some (GoError.leaf "timeout")
  else if n = 2 then some (NewPermanentError (some (GoError.leaf "disk gone")))
  else none

/-- A job that fails permanently on its first run. -/
def failingJob : Nat → Option GoError := fun n =>
  if n = 0 then some (NewPermanentError (some (GoError.leaf "disk gone"))) else none

/-- A job that returns `NewPermanentError(nil)` on every run. -/
def nilCauseJob : Nat → Option GoError := fun _ => some (NewPermanentError none)

/-- A job that returns an ordinary error on every run. -/
def flakyJob : Nat → Option GoError := fun _ => some (GoError.leaf "timeout")

/-- The engine after `StartJobEvery(10, demoJob)` on a new scheduler. -/
def demoCron : Cron :=
  { entries := [{ ID := 1, Schedule := 10, Job := { job := demoJob, cancel := 0 } }],
    running := true, nextID := 1 }

/-- The state after `StartJobEvery(10, demoJob)` on a new scheduler. -/
def demoWorld : World :=
  { s := { crontab := some demoCron, activeJobs := fun k => if k = 1 then some 0 else none },
    done := [], nextCtx := 1, watchers := [(0, 1)], invoked := [] }

/-- The state `demoWorld` after `StopJob("1")`. -/
def stoppedWorld : World :=
  { demoWorld with done := [0] }

/-! ## Lemmas on the decimal conversions -/


theorem isDigit_iff (c : Char) : c.isDigit = true ↔ ('0' ≤ c ∧ c ≤ '9') := by
  simp [Char.isDigit, Char.le_def, UInt32.le_def, Char.lt_def]

theorem accumulate_ge (cs : List Char) (n : Nat) : n ≤ accumulate n cs := by
  induction cs generalizing n with
  | nil => simp [accumulate]
  | cons c cs ih =>
    have := ih (n * 10 + digitValue c)
    simp only [accumulate, List.foldl_cons] at this ⊢
    omega

theorem accumulate_zero_eq_ofDigits (cs : List Char) :
    accumulate 0 cs = Nat.ofDigits 10 (cs.reverse.map digitValue) := by
  induction cs using List.reverseRecOn with
  | nil => simp [accumulate]
  | append_singleton cs c ih =>
    simp only [accumulate] at ih
    simp [accumulate, List.foldl_append, Nat.ofDigits_cons, ih]
    ring

theorem parseUintLoop_ok_of_digits (cs : List Char) (n : Nat)
    (hd : ∀ c ∈ cs, c.isDigit = true) (hr : accumulate n cs ≤ maxUint64) :
    parseUintLoop cs n = Except.ok (accumulate n cs) := by
  induction cs generalizing n with
  | nil => simp [parseUintLoop, accumulate]
  | cons c cs ih =>
    have hc := (isDigit_iff c).1 (hd c (List.mem_cons_self _ _))
    have hge := accumulate_ge cs (n * 10 + digitValue c)
    have hacc : accumulate n (c :: cs) = accumulate (n * 10 + digitValue c) cs := by
      simp [accumulate]
    rw [hacc] at hr ⊢
    have h48 : c.toNat - '0'.toNat = digitValue c := rfl
    rw [parseUintLoop, if_pos hc, h48, if_neg (by omega)]
    exact ih _ (fun c hc => hd c (List.mem_cons_of_mem _ hc)) hr

theorem parseUintLoop_ok_inv (cs : List Char) (n m : Nat)
    (h : parseUintLoop cs n = Except.ok m) :
    (∀ c ∈ cs, c.isDigit = true) ∧ m = accumulate n cs := by
  induction cs generalizing n with
  | nil =>
    simp [parseUintLoop] at h
    simp [accumulate, h]
  | cons c cs ih =>
    rw [parseUintLoop] at h
    by_cases hc : '0' ≤ c ∧ c ≤ '9'
    · rw [if_pos hc] at h
      by_cases hr : n * 10 + (c.toNat - '0'.toNat) > maxUint64
      · rw [if_pos hr] at h
        cases h
      · rw [if_neg hr] at h
        obtain ⟨h1, h2⟩ := ih _ h
        refine ⟨?_, ?_⟩
        · intro x hx
          rcases List.mem_cons.1 hx with rfl | hx
          · exact (isDigit_iff x).2 hc
          · exact h1 x hx
        · rw [h2]
          simp [accumulate, digitValue]
    · rw [if_neg hc] at h
      cases h

theorem digit_char_spec (d : Nat) (h : d < 10) :
    ('0' ≤ Char.ofNat (d + '0'.toNat) ∧ Char.ofNat (d + '0'.toNat) ≤ '9') ∧
    (Char.ofNat (d + '0'.toNat)).toNat - '0'.toNat = d ∧
    Char.ofNat (d + '0'.toNat) ≠ '+' ∧ Char.ofNat (d + '0'.toNat) ≠ '-' := by
  interval_cases d <;> decide

theorem parseUintLoop_formatBits (fuel u : Nat) (acc : List Char)
    (hf : u < fuel) (hu : u ≤ maxUint64) :
    parseUintLoop (formatBits fuel u acc) 0 = parseUintLoop acc u := by
  induction fuel generalizing u acc with
  | zero => omega
  | succ fuel ih =>
    rw [formatBits]
    by_cases h10 : u < 10
    · rw [if_pos h10]
      obtain ⟨hd, hv, -, -⟩ := digit_char_spec u h10
      rw [parseUintLoop, if_pos hd, hv, if_neg (by omega)]
      simp
    · rw [if_neg h10]
      have hlt : u % 10 < 10 := Nat.mod_lt _ (by decide)
      obtain ⟨hd, hv, -, -⟩ := digit_char_spec (u % 10) hlt
      rw [ih (u / 10) _ (by omega) (by omega)]
      rw [parseUintLoop, if_pos hd, hv]
      have : u / 10 * 10 + u % 10 = u := by omega
      rw [this, if_neg (by omega)]

theorem formatBits_head (fuel u : Nat) (acc : List Char) (hf : u < fuel) :
    ∃ c rest, formatBits fuel u acc = c :: rest ∧ c ≠ '+' ∧ c ≠ '-' := by
  induction fuel generalizing u acc with
  | zero => omega
  | succ fuel ih =>
    rw [formatBits]
    by_cases h10 : u < 10
    · rw [if_pos h10]
      obtain ⟨-, -, h1, h2⟩ := digit_char_spec u h10
      exact ⟨_, _, rfl, h1, h2⟩
    · rw [if_neg h10]
      exact ih (u / 10) _ (by omega)

theorem parseInt_Itoa (i : Int) (h1 : minInt ≤ i) (h2 : i ≤ maxInt) :
    parseInt (Itoa i).data = Except.ok i := by
  unfold minInt at h1
  unfold maxInt at h2
  obtain ⟨c, rest, hcr, hp, hm⟩ := formatBits_head (i.natAbs + 1) i.natAbs [] (by omega)
  have hloop : parseUintLoop (c :: rest) 0 = Except.ok i.natAbs := by
    rw [← hcr, parseUintLoop_formatBits (i.natAbs + 1) i.natAbs [] (by omega)
      (by unfold maxUint64; omega)]
    rfl
  by_cases hneg : i < 0
  · have hle : ¬ (9223372036854775808 < i.natAbs) := by omega
    have hval : -|i| = i := by rw [abs_of_neg hneg]; omega
    simp [Itoa, if_pos hneg, parseInt, hcr, hloop, hle, hval]
  · have hle : ¬ (9223372036854775808 ≤ i.natAbs) := by omega
    have hval : |i| = i := abs_of_nonneg (by omega)
    simp [Itoa, if_neg hneg, parseInt, hcr, hp, hm, hloop, hle, hval]

theorem Atoi_Itoa (i : Int) (h1 : minInt ≤ i) (h2 : i ≤ maxInt) :
    Atoi (Itoa i) = Except.ok i := by
  simp [Atoi, parseInt_Itoa i h1 h2]

theorem signed_range_iff (body : List Char) (neg : Bool) :
    isOk (match parseUintLoop body 0 with
      | Except.error e => (Except.error e : Except NumErr Int)
      | Except.ok un =>
        if neg = false ∧ un ≥ 2 ^ 63 then Except.error NumErr.outOfRange
        else if neg = true ∧ un > 2 ^ 63 then Except.error NumErr.outOfRange
        else Except.ok (if neg then -(un : Int) else (un : Int))) = true ↔
    ((∀ c ∈ body, c.isDigit = true) ∧
      (if neg then accumulate 0 body ≤ 2 ^ 63 else accumulate 0 body < 2 ^ 63)) := by
  cases h : parseUintLoop body 0 with
  | error e =>
    simp only [isOk, Bool.false_eq_true, false_iff, not_and]
    intro hd hr
    have hle : accumulate 0 body ≤ maxUint64 := by
      unfold maxUint64
      cases neg <;> simp at hr <;> omega
    rw [parseUintLoop_ok_of_digits body 0 hd hle] at h
    cases h
  | ok un =>
    obtain ⟨hd, hv⟩ := parseUintLoop_ok_inv body 0 un h
    subst hv
    cases neg
    · by_cases hr : accumulate 0 body < 9223372036854775808
      · have : ¬ (9223372036854775808 ≤ accumulate 0 body) := by omega
        simp [isOk, hr, this]
        exact hd
      · have : 9223372036854775808 ≤ accumulate 0 body := by omega
        simp [isOk, hr, this]
    · by_cases hr : accumulate 0 body ≤ 9223372036854775808
      · have : ¬ (9223372036854775808 < accumulate 0 body) := by omega
        simp [isOk, hr, this]
        exact hd
      · have : 9223372036854775808 < accumulate 0 body := by omega
        simp [isOk, hr, this]

theorem parseInt_ok_iff (s : String) :
    isOk (parseInt s.data) = true ↔ isDecimalIdentifier s = true := by
  unfold isDecimalIdentifier
  cases hs : s.data with
  | nil => simp [parseInt, isOk]
  | cons c rest =>
    simp only [parseInt, List.head?_cons, List.tail_cons, Option.some.injEq]
    by_cases hp : c = '+'
    · subst hp
      cases rest with
      | nil => simp [isOk]
      | cons b bs =>
        have := signed_range_iff (b :: bs) false
        rw [accumulate_zero_eq_ofDigits] at this
        simpa using this
    · by_cases hm : c = '-'
      · subst hm
        cases rest with
        | nil => simp [isOk]
        | cons b bs =>
          have := signed_range_iff (b :: bs) true
          rw [accumulate_zero_eq_ofDigits] at this
          simpa using this
      · have := signed_range_iff (c :: rest) false
        rw [accumulate_zero_eq_ofDigits] at this
        simpa [hp, hm] using this

theorem Atoi_ok_iff (s : String) : isOk (Atoi s) = true ↔ isDecimalIdentifier s = true := by
  rw [← parseInt_ok_iff]
  unfold Atoi
  cases h : parseInt s.data with
  | ok n => simp [isOk]
  | error e => cases e <;> simp [isOk]

/-! ## Lemmas on cancellation and the invariant -/



theorem mem_cancelCtx (ctx x : Nat) (done : List Nat) :
    x ∈ cancelCtx ctx done ↔ x ∈ done ∨ x = ctx := by
  unfold cancelCtx
  by_cases h : ctx ∈ done
  · rw [if_pos h]
    constructor
    · exact Or.inl
    · rintro (h1 | rfl)
      · exact h1
      · exact h
  · rw [if_neg h, List.mem_cons]
    tauto

theorem cancelCtx_of_mem (ctx : Nat) (done : List Nat) (h : ctx ∈ done) :
    cancelCtx ctx done = done := by
  unfold cancelCtx
  rw [if_pos h]

theorem cancelCtx_idem (ctx : Nat) (done : List Nat) :
    cancelCtx ctx (cancelCtx ctx done) = cancelCtx ctx done := by
  exact cancelCtx_of_mem ctx _ ((mem_cancelCtx ctx ctx done).2 (Or.inr rfl))

theorem Run_eq (j : FuncJob) (n : Nat) (done : List Nat) :
    j.Run n done =
      if isLoggablePermanentFailure (j.job n) then cancelCtx j.cancel done else done := by
  unfold FuncJob.Run isLoggablePermanentFailure
  cases h : j.job n with
  | none => simp
  | some err =>
    cases h2 : asPermanentError err with
    | none => cases h3 : logErr err <;> simp [h2, h3]
    | some permErr => cases h3 : logErr permErr <;> simp [h2, h3]

theorem mem_Run_of_mem (j : FuncJob) (n : Nat) (done : List Nat) (x : Nat) (h : x ∈ done) :
    x ∈ j.Run n done := by
  rw [Run_eq]
  split
  · exact (mem_cancelCtx _ _ _).2 (Or.inl h)
  · exact h

theorem mem_cancelEntries_of_mem (a : Int → Option Nat) (es : List Entry) (done : List Nat)
    (x : Nat) (h : x ∈ done) : x ∈ cancelEntries a es done := by
  induction es generalizing done with
  | nil => exact h
  | cons e es ih =>
    unfold cancelEntries
    cases ha : a e.ID with
    | none => exact ih done h
    | some c => exact ih _ ((mem_cancelCtx _ _ _).2 (Or.inl h))

theorem mem_cancelEntries_of_entry (a : Int → Option Nat) (es : List Entry) (done : List Nat)
    (id : Int) (ctx : Nat) (hid : id ∈ es.map Entry.ID) (ha : a id = some ctx) :
    ctx ∈ cancelEntries a es done := by
  induction es generalizing done with
  | nil => simp at hid
  | cons e es ih =>
    unfold cancelEntries
    by_cases he : e.ID = id
    · rw [he, ha]
      exact mem_cancelEntries_of_mem _ _ _ _ ((mem_cancelCtx _ _ _).2 (Or.inr rfl))
    · have hid' : id ∈ es.map Entry.ID := by
        simp only [List.map_cons, List.mem_cons] at hid
        rcases hid with h | h
        · exact absurd h.symm he
        · exact h
      cases a e.ID with
      | none => exact ih done hid'
      | some c => exact ih _ hid'

theorem Inv_NewScheduler : Inv NewScheduler := by
  refine ⟨Cron.New.Start, rfl, ?_, ?_, ?_⟩
  · intro e he
    simp [Cron.New, Cron.Start] at he
  · intro p hp
    simp [NewScheduler] at hp
  · intro id ctx h
    simp [NewScheduler] at h

theorem Inv_StartJobEvery (w : World) (duration : Int) (job : Nat → Option GoError)
    (h : Inv w) : ∃ r, StartJobEvery w duration job = some r ∧ Inv r.2 := by
  obtain ⟨c, hc, h1, h2, h3⟩ := h
  simp only [StartJobEvery, hc, Cron.Schedule]
  refine ⟨_, rfl, _, rfl, ?_, ?_, ?_⟩
  · intro e he
    simp only [List.mem_append, List.mem_singleton] at he
    rcases he with he | rfl
    · have := h1 e he
      show e.ID ≤ c.nextID + 1
      omega
    · simp
  · intro p hp
    simp only [List.mem_cons] at hp
    rcases hp with rfl | hp
    · simp
    · obtain ⟨hle, ha⟩ := h2 p hp
      have hne : p.2 ≠ c.nextID + 1 := by omega
      simp only [hne, if_false]
      exact ⟨by omega, ha⟩
  · intro id ctx ha
    by_cases hid : id = c.nextID + 1
    · right
      simp [hid]
    · simp only [hid, if_false] at ha
      rcases h3 id ctx ha with hd | hm
      · exact Or.inl hd
      · right
        simp only [List.map_append, List.mem_append]
        exact Or.inl hm

theorem Inv_StopJob (w : World) (jobID : String) (h : Inv w) : Inv (StopJob w jobID).1 := by
  obtain ⟨c, hc, h1, h2, h3⟩ := h
  cases hA : Atoi jobID with
  | error err =>
    simp only [StopJob, hA]
    exact ⟨c, hc, h1, h2, h3⟩
  | ok id =>
    cases ha : w.s.activeJobs id with
    | none =>
      simp only [StopJob, hA, ha]
      exact ⟨c, hc, h1, h2, h3⟩
    | some cancel =>
      simp only [StopJob, hA, ha]
      refine ⟨c, hc, h1, h2, ?_⟩
      intro id' ctx h'
      rcases h3 id' ctx h' with hd | hm
      · exact Or.inl ((mem_cancelCtx _ _ _).2 (Or.inl hd))
      · exact Or.inr hm

theorem Inv_Shutdown (w : World) (stopErr : Option GoError) (h : Inv w) :
    Inv (Shutdown w stopErr).1 := by
  obtain ⟨c, hc, h1, h2, h3⟩ := h
  simp only [Shutdown, hc]
  refine ⟨c.Stop, rfl, h1, h2, ?_⟩
  intro id ctx h'
  rcases h3 id ctx h' with hd | hm
  · exact Or.inl (mem_cancelEntries_of_mem _ _ _ _ hd)
  · exact Or.inr hm

theorem Inv_tick (w w' : World) (id : Int) (h : Inv w) (ht : tick w id = some w') : Inv w' := by
  obtain ⟨c, hc, h1, h2, h3⟩ := h
  simp only [tick, hc] at ht
  split at ht
  · split at ht
    · cases ht
    · cases ht
      refine ⟨c, hc, h1, h2, ?_⟩
      intro id' ctx h'
      rcases h3 id' ctx h' with hd | hm
      · exact Or.inl (mem_Run_of_mem _ _ _ _ hd)
      · exact Or.inr hm
  · cases ht

theorem Inv_watcher (w w' : World) (ctx : Nat) (id : Int) (h : Inv w)
    (hw : watcher w ctx id = some w') : Inv w' := by
  obtain ⟨c, hc, h1, h2, h3⟩ := h
  simp only [watcher, hc] at hw
  split at hw
  · rename_i hen
    cases hw
    refine ⟨c.Remove id, rfl, ?_, ?_, ?_⟩
    · intro e he
      simp only [Cron.Remove, List.mem_filter] at he
      exact h1 e he.1
    · intro p hp
      exact h2 p (List.mem_of_mem_erase hp)
    · intro id' ctx' h'
      by_cases hid : id' = id
      · subst hid
        have := (h2 (ctx, id') hen.1).2
        simp only at this
        rw [h'] at this
        cases this
        exact Or.inl hen.2
      · rcases h3 id' ctx' h' with hd | hm
        · exact Or.inl hd
        · right
          simp only [Cron.Remove, List.mem_map, List.mem_filter] at hm ⊢
          obtain ⟨e, he, rfl⟩ := hm
          exact ⟨e, ⟨he, by simpa using hid⟩, rfl⟩
  · cases hw

theorem Inv_step (w w' : World) (a : Action) (h : Inv w) (hs : step w a = some w') : Inv w' := by
  cases a with
  | start duration job =>
    obtain ⟨r, hr, hi⟩ := Inv_StartJobEvery w duration job h
    simp only [step, hr, Option.map_some', Option.some.injEq] at hs
    exact hs ▸ hi
  | stop jobID =>
    simp only [step, Option.some.injEq] at hs
    exact hs ▸ Inv_StopJob w jobID h
  | shutdown stopErr =>
    simp only [step, Option.some.injEq] at hs
    exact hs ▸ Inv_Shutdown w stopErr h
  | tick id => exact Inv_tick w w' id h hs
  | watch ctx id => exact Inv_watcher w w' ctx id h hs

theorem Inv_run (acts : List Action) (w w' : World) (h : Inv w) (hr : run w acts = some w') :
    Inv w' := by
  induction acts generalizing w with
  | nil =>
    simp only [run, Option.some.injEq] at hr
    exact hr ▸ h
  | cons a rest ih =>
    simp only [run] at hr
    cases hs : step w a with
    | none => simp [hs] at hr
    | some w1 =>
      simp only [hs] at hr
      exact ih w1 (Inv_step w w1 a h hs) hr

theorem Inv_of_Reachable (w : World) (h : Reachable w) : Inv w := by
  obtain ⟨acts, hr⟩ := h
  exact Inv_run acts _ _ Inv_NewScheduler hr

theorem Removed_step (w w' : World) (id : Int) (a : Action) (h : Removed w id)
    (hs : step w a = some w') : Removed w' id ∧ w'.invoked.count id = w.invoked.count id := by
  obtain ⟨c, hc, hle, hab⟩ := h
  cases a with
  | start duration job =>
    simp only [step, StartJobEvery, hc, Cron.Schedule, Option.map_some', Option.some.injEq] at hs
    subst hs
    refine ⟨⟨_, rfl, ?_, ?_⟩, rfl⟩
    · show id ≤ c.nextID + 1
      omega
    · simp only [List.map_append, List.mem_append, List.map_cons, List.map_nil,
        List.mem_singleton, not_or]
      exact ⟨hab, by omega⟩
  | stop jobID =>
    simp only [step, Option.some.injEq] at hs
    subst hs
    cases hA : Atoi jobID with
    | error err =>
      simp only [StopJob, hA]
      exact ⟨⟨c, hc, hle, hab⟩, trivial⟩
    | ok id' =>
      cases ha : w.s.activeJobs id' with
      | none =>
        simp only [StopJob, hA, ha]
        exact ⟨⟨c, hc, hle, hab⟩, trivial⟩
      | some cancel =>
        simp only [StopJob, hA, ha]
        exact ⟨⟨c, hc, hle, hab⟩, trivial⟩
  | shutdown stopErr =>
    simp only [step, Shutdown, hc, Option.some.injEq] at hs
    subst hs
    exact ⟨⟨c.Stop, rfl, hle, hab⟩, rfl⟩
  | tick id' =>
    simp only [step, tick, hc] at hs
    split at hs
    · split at hs
      · cases hs
      · rename_i e he
        cases hs
        refine ⟨⟨c, hc, hle, hab⟩, ?_⟩
        have hmem := List.mem_of_find?_eq_some he
        have hid := List.find?_some he
        simp only [decide_eq_true_eq] at hid
        have hne : id' ≠ id := by
          rintro rfl
          exact hab (List.mem_map.2 ⟨e, hmem, hid⟩)
        simp [List.count_cons, hne]
    · cases hs
  | watch ctx id' =>
    simp only [step, watcher, hc] at hs
    split at hs
    · cases hs
      refine ⟨⟨c.Remove id', rfl, hle, ?_⟩, rfl⟩
      intro hm
      simp only [Cron.Remove, List.mem_map, List.mem_filter] at hm
      obtain ⟨e, ⟨he, -⟩, rfl⟩ := hm
      exact hab (List.mem_map.2 ⟨e, he, rfl⟩)
    · cases hs

theorem Removed_run (acts : List Action) (w w' : World) (id : Int) (h : Removed w id)
    (hr : run w acts = some w') : w'.invoked.count id = w.invoked.count id := by
  induction acts generalizing w with
  | nil =>
    simp only [run, Option.some.injEq] at hr
    rw [← hr]
  | cons a rest ih =>
    simp only [run] at hr
    cases hs : step w a with
    | none => simp [hs] at hr
    | some w1 =>
      simp only [hs] at hr
      obtain ⟨h1, h2⟩ := Removed_step w w1 id a h hs
      rw [ih w1 h1 hr, h2]

theorem watcher_spec (w : World) (ctx : Nat) (id : Int) (hreach : Reachable w)
    (hw : (ctx, id) ∈ w.watchers) (hd : ctx ∈ w.done) :
    ∃ w', watcher w ctx id = some w' ∧ Removed w' id ∧ w'.s.activeJobs id = some ctx ∧
      w'.done = w.done := by
  obtain ⟨c, hc, h1, h2, h3⟩ := Inv_of_Reachable w hreach
  obtain ⟨hle, ha⟩ := h2 (ctx, id) hw
  simp only [watcher, hc, hw, hd, and_self, if_true]
  refine ⟨_, rfl, ⟨c.Remove id, rfl, hle, ?_⟩, ha, rfl⟩
  simp [Cron.Remove]

theorem Reachable_demoWorld : Reachable demoWorld :=
  ⟨[Action.start 10 demoJob], rfl⟩

theorem Reachable_stoppedWorld : Reachable stoppedWorld :=
  ⟨[Action.start 10 demoJob, Action.stop "1"], rfl⟩

/-! ## Lemmas on the watchers -/

theorem StopJob_frame (w : World) (jobID : String) :
    (StopJob w jobID).1.s = w.s ∧ (StopJob w jobID).1.watchers = w.watchers ∧
    (StopJob w jobID).1.nextCtx = w.nextCtx ∧ (StopJob w jobID).1.invoked = w.invoked := by
  cases hA : Atoi jobID with
  | error err => simp [StopJob, hA]
  | ok id =>
    cases ha : w.s.activeJobs id <;> simp [StopJob, hA, ha]

theorem Shutdown_frame (w : World) (stopErr : Option GoError) :
    (Shutdown w stopErr).1.watchers = w.watchers ∧
    (Shutdown w stopErr).1.nextCtx = w.nextCtx := by
  cases hc : w.s.crontab <;> simp [Shutdown, hc]

theorem tick_frame (w w' : World) (id : Int) (ht : tick w id = some w') :
    w'.watchers = w.watchers ∧ w'.nextCtx = w.nextCtx := by
  unfold tick at ht
  split at ht
  · cases ht
  · split at ht
    · split at ht
      · cases ht
      · cases ht
        exact ⟨rfl, rfl⟩
    · cases ht

theorem watcher_frame (w w' : World) (ctx : Nat) (id : Int) (hw : watcher w ctx id = some w') :
    w'.watchers = w.watchers.erase (ctx, id) ∧ w'.nextCtx = w.nextCtx ∧
    (ctx, id) ∈ w.watchers := by
  unfold watcher at hw
  split at hw
  · rename_i hen
    split at hw
    · cases hw
    · cases hw
      exact ⟨rfl, rfl, hen.1⟩
  · cases hw

theorem StartJobEvery_frame (w : World) (duration : Int) (job : Nat → Option GoError)
    (r : String × World) (h : StartJobEvery w duration job = some r) :
    ∃ id, r.2.watchers = (w.nextCtx, id) :: w.watchers ∧ r.2.nextCtx = w.nextCtx + 1 := by
  unfold StartJobEvery at h
  split at h
  · cases h
  · cases h
    exact ⟨_, rfl, rfl⟩

theorem WatchInv_step (w w' : World) (a : Action) (h : WatchInv w) (hs : step w a = some w') :
    WatchInv w' := by
  obtain ⟨h1, h2⟩ := h
  cases a with
  | start duration job =>
    simp only [step] at hs
    cases hr : StartJobEvery w duration job with
    | none => simp [hr] at hs
    | some r =>
      simp only [hr, Option.map_some', Option.some.injEq] at hs
      subst hs
      obtain ⟨id, hw, hn⟩ := StartJobEvery_frame w duration job r hr
      unfold WatchInv
      rw [hw, hn]
      refine ⟨?_, ?_⟩
      · intro p hp
        rcases List.mem_cons.1 hp with rfl | hp
        · exact Nat.lt_succ_self _
        · exact Nat.lt_succ_of_lt (h1 p hp)
      · refine List.nodup_cons.2 ⟨?_, h2⟩
        intro hmem
        exact absurd (h1 _ hmem) (lt_irrefl _)
  | stop jobID =>
    simp only [step, Option.some.injEq] at hs
    subst hs
    obtain ⟨-, hw, hn, -⟩ := StopJob_frame w jobID
    unfold WatchInv
    rw [hw, hn]
    exact ⟨h1, h2⟩
  | shutdown stopErr =>
    simp only [step, Option.some.injEq] at hs
    subst hs
    obtain ⟨hw, hn⟩ := Shutdown_frame w stopErr
    unfold WatchInv
    rw [hw, hn]
    exact ⟨h1, h2⟩
  | tick id =>
    obtain ⟨hw, hn⟩ := tick_frame w w' id hs
    unfold WatchInv
    rw [hw, hn]
    exact ⟨h1, h2⟩
  | watch ctx id =>
    obtain ⟨hw, hn, -⟩ := watcher_frame w w' ctx id hs
    unfold WatchInv
    rw [hw, hn]
    exact ⟨fun p hp => h1 p (List.mem_of_mem_erase hp), h2.erase _⟩

theorem WatchInv_run (acts : List Action) (w w' : World) (h : WatchInv w)
    (hr : run w acts = some w') : WatchInv w' := by
  induction acts generalizing w with
  | nil =>
    simp only [run, Option.some.injEq] at hr
    exact hr ▸ h
  | cons a rest ih =>
    simp only [run] at hr
    cases hs : step w a with
    | none => simp [hs] at hr
    | some w1 =>
      simp only [hs] at hr
      exact ih w1 (WatchInv_step w w1 a h hs) hr

theorem WatchInv_of_Reachable (w : World) (h : Reachable w) : WatchInv w := by
  obtain ⟨acts, hr⟩ := h
  refine WatchInv_run acts _ _ ?_ hr
  exact ⟨by simp [NewScheduler], by simp [NewScheduler]⟩

theorem Retired_step (w w' : World) (ctx : Nat) (id : Int) (a : Action)
    (h : Retired w ctx id) (hs : step w a = some w') : Retired w' ctx id := by
  obtain ⟨h1, h2⟩ := h
  cases a with
  | start duration job =>
    simp only [step] at hs
    cases hr : StartJobEvery w duration job with
    | none => simp [hr] at hs
    | some r =>
      simp only [hr, Option.map_some', Option.some.injEq] at hs
      subst hs
      obtain ⟨id', hw, hn⟩ := StartJobEvery_frame w duration job r hr
      unfold Retired
      rw [hw, hn]
      refine ⟨Nat.lt_succ_of_lt h1, ?_⟩
      intro hmem
      rcases List.mem_cons.1 hmem with heq | hmem
      · have : ctx = w.nextCtx := congrArg Prod.fst heq
        omega
      · exact h2 hmem
  | stop jobID =>
    simp only [step, Option.some.injEq] at hs
    subst hs
    obtain ⟨-, hw, hn, -⟩ := StopJob_frame w jobID
    unfold Retired
    rw [hw, hn]
    exact ⟨h1, h2⟩
  | shutdown stopErr =>
    simp only [step, Option.some.injEq] at hs
    subst hs
    obtain ⟨hw, hn⟩ := Shutdown_frame w stopErr
    unfold Retired
    rw [hw, hn]
    exact ⟨h1, h2⟩
  | tick id' =>
    obtain ⟨hw, hn⟩ := tick_frame w w' id' hs
    unfold Retired
    rw [hw, hn]
    exact ⟨h1, h2⟩
  | watch ctx' id' =>
    obtain ⟨hw, hn, -⟩ := watcher_frame w w' ctx' id' hs
    unfold Retired
    rw [hw, hn]
    exact ⟨h1, fun hmem => h2 (List.mem_of_mem_erase hmem)⟩

theorem Retired_run (acts : List Action) (w w' : World) (ctx : Nat) (id : Int)
    (h : Retired w ctx id) (hr : run w acts = some w') : Retired w' ctx id := by
  induction acts generalizing w with
  | nil =>
    simp only [run, Option.some.injEq] at hr
    exact hr ▸ h
  | cons a rest ih =>
    simp only [run] at hr
    cases hs : step w a with
    | none => simp [hs] at hr
    | some w1 =>
      simp only [hs] at hr
      exact ih w1 (Retired_step w w1 ctx id a h hs) hr

theorem watcher_none_of_Retired (w : World) (ctx : Nat) (id : Int) (h : Retired w ctx id) :
    watcher w ctx id = none := by
  unfold watcher
  rw [if_neg]
  exact fun hc => h.2 hc.1

theorem Retired_of_watcher (w w' : World) (ctx : Nat) (id : Int) (h : WatchInv w)
    (hw : watcher w ctx id = some w') : Retired w' ctx id := by
  obtain ⟨hw1, hn, hmem⟩ := watcher_frame w w' ctx id hw
  unfold Retired
  rw [hw1, hn]
  exact ⟨h.1 _ hmem, fun hm => (List.Nodup.mem_erase_iff h.2).1 hm |>.1 rfl⟩

theorem Reachable_step (w w' : World) (a : Action) (h : Reachable w) (hs : step w a = some w') :
    Reachable w' := by
  obtain ⟨acts, hr⟩ := h
  refine ⟨acts ++ [a], ?_⟩
  have key : ∀ (l : List Action) (u v : World), run u l = some v →
      run u (l ++ [a]) = step v a := by
    intro l
    induction l with
    | nil =>
      intro u v huv
      simp only [run, Option.some.injEq] at huv
      subst huv
      simp only [List.nil_append, run]
      cases step u a <;> rfl
    | cons b l ih =>
      intro u v huv
      simp only [run, List.cons_append] at huv ⊢
      cases hb : step u b with
      | none => simp [hb] at huv
      | some u1 =>
        simp only [hb] at huv ⊢
        exact ih u1 v huv
  rw [key acts _ _ hr, hs]

/-! ## C1 -/

/-- What a tick does to the cancelled contexts: the job's context is cancelled
after the tick if and only if `errors.As` finds a `*PermanentError` on the
result and logging it returns (given the context was not cancelled before), no
other context is touched, and the scheduler (engine entries and registry) and
the watchers are unchanged. -/
theorem tick_cancels_iff (w : World) (id : Int) (crontab : Cron) (e : Entry)
    (hc : w.s.crontab = some crontab) (hrun : crontab.running = true)
    (he : (crontab.Entries.find? fun e => e.ID = id) = some e)
    (hlive : e.Job.cancel ∉ w.done) :
    ∃ w', tick w id = some w' ∧
      (e.Job.cancel ∈ w'.done ↔
        isLoggablePermanentFailure (e.Job.job (w.invoked.count id)) = true) ∧
      w'.done = (if isLoggablePermanentFailure (e.Job.job (w.invoked.count id))
        then cancelCtx e.Job.cancel w.done else w.done) ∧
      (∀ ctx, ctx ≠ e.Job.cancel → (ctx ∈ w'.done ↔ ctx ∈ w.done)) ∧
      w'.s = w.s ∧ w'.watchers = w.watchers := by
  simp only [tick, hc, hrun, if_true, he]
  refine ⟨_, rfl, ?_, Run_eq _ _ _, ?_, rfl, rfl⟩
  · simp only [Run_eq]
    by_cases hp : isLoggablePermanentFailure (e.Job.job (List.count id w.invoked)) = true
    · simp only [hp, if_true, iff_true]
      exact (mem_cancelCtx _ _ _).2 (Or.inr rfl)
    · simp only [hp, if_false, iff_false]
      simpa using hlive
  · intro ctx hne
    simp only [Run_eq]
    split
    · rw [mem_cancelCtx]
      constructor
      · rintro (h | h)
        · exact h
        · exact absurd h hne
      · exact Or.inl
    · exact Iff.rfl

/-- The fact `tick_cancels_iff` on the first run of `demoJob`, which fails
transiently: the context 0 stays uncancelled and the entry stays in the
engine. -/
theorem tick_cancels_iff_demo :
    demoWorld.s.crontab = some demoCron ∧ demoCron.running = true ∧
    (demoCron.Entries.find? fun e => e.ID = 1) =
      some { ID := 1, Schedule := 10, Job := { job := demoJob, cancel := 0 } } ∧
    (0 : Nat) ∉ demoWorld.done ∧
    ∃ w', tick demoWorld 1 = some w' ∧
      ((0 : Nat) ∈ w'.done ↔
        isLoggablePermanentFailure (demoJob (demoWorld.invoked.count 1)) = true) ∧
      w'.done = (if isLoggablePermanentFailure (demoJob (demoWorld.invoked.count 1))
        then cancelCtx 0 demoWorld.done else demoWorld.done) ∧
      (∀ ctx, ctx ≠ 0 → (ctx ∈ w'.done ↔ ctx ∈ demoWorld.done)) ∧
      w'.s = demoWorld.s ∧ w'.watchers = demoWorld.watchers :=
  ⟨rfl, rfl, rfl, by decide,
    tick_cancels_iff demoWorld 1 demoCron
      { ID := 1, Schedule := 10, Job := { job := demoJob, cancel := 0 } } rfl rfl rfl
      (by decide)⟩

/-- C1, evaluated on the code: the result `NewPermanentError(nil)` is a permanent
failure, a `*PermanentError` found by `errors.As`, yet the wrapper does not
trigger the job's token: logging the error panics before `cancel` is reached.
After three ticks the job has been invoked three times, its context 0 is not
cancelled and its entry 1 is still in the engine.  A `*PermanentError` with a
cause, by contrast, has the context cancelled after the first tick. -/
theorem permanent_nil_cause_not_cancelled :
    isPermanentFailure (nilCauseJob 0) = true ∧
    ((run NewScheduler [Action.start 10 nilCauseJob, Action.tick 1, Action.tick 1,
        Action.tick 1]).map fun w => (w.invoked.count 1, w.done, engineIDs w)) =
      some (3, [], [1]) ∧
    isPermanentFailure (failingJob 0) = true ∧
    ((run NewScheduler [Action.start 10 failingJob, Action.tick 1]).map
      fun w => (w.invoked.count 1, w.done, engineIDs w)) = some (1, [0], [1]) := by
  refine ⟨rfl, rfl, rfl, rfl⟩

/-! ## C2 -/

/-- C2: in every state, StopJob returns a non-nil error if and only if the
identifier is not a decimal integer of the `int` type; in particular
`"not-a-number"` gives an error and `"9999999"` gives none, whatever the state
holds. -/
theorem StopJob_error_iff_malformed (w : World) (jobID : String) :
    ((StopJob w jobID).2 ≠ none ↔ isDecimalIdentifier jobID = false) ∧
    (StopJob w "not-a-number").2 ≠ none ∧
    (StopJob w "9999999").2 = none := by
  have key : ∀ j : String, ((StopJob w j).2 ≠ none ↔ isDecimalIdentifier j = false) := by
    intro j
    have hiff := Atoi_ok_iff j
    cases hA : Atoi j with
    | error err =>
      simp only [hA, isOk] at hiff
      have hf : isDecimalIdentifier j = false := by
        cases hd : isDecimalIdentifier j
        · rfl
        · exact absurd (hiff.2 hd) (by simp)
      simp [StopJob, hA, hf]
    | ok id =>
      simp only [hA, isOk, true_iff] at hiff
      cases ha : w.s.activeJobs id <;> simp [StopJob, hA, ha, hiff]
  refine ⟨key jobID, (key _).2 (by decide), ?_⟩
  have := (key "9999999").not
  simp only [ne_eq, not_not] at this
  exact this.2 (by decide)

/-! ## C3 -/

/-- C3: when the engine handle is set and the identifier the engine assigns is a
value of the `int` type, StartJobEvery returns the decimal text of that
identifier, the text parses back to the identifier, the job's context is the
one registered under it, and StopJob on the text returns no error and leaves
cancelled exactly the contexts cancelled before together with the job's
context. -/
theorem StartJobEvery_StopJob_roundtrip (w : World) (crontab : Cron) (duration : Int)
    (job : Nat → Option GoError) (hc : w.s.crontab = some crontab)
    (hlo : minInt ≤ crontab.nextID + 1) (hhi : crontab.nextID + 1 ≤ maxInt) :
    ∃ w1,
      StartJobEvery w duration job =
        some (Itoa (crontab.Schedule duration { job := job, cancel := w.nextCtx }).1, w1) ∧
      Atoi (Itoa (crontab.Schedule duration { job := job, cancel := w.nextCtx }).1) =
        Except.ok (crontab.Schedule duration { job := job, cancel := w.nextCtx }).1 ∧
      w1.s.activeJobs (crontab.Schedule duration { job := job, cancel := w.nextCtx }).1 =
        some w.nextCtx ∧
      w1.done = w.done ∧
      (StopJob w1 (Itoa (crontab.Schedule duration { job := job, cancel := w.nextCtx }).1)).2 =
        none ∧
      ∀ ctx,
        ctx ∈ (StopJob w1
          (Itoa (crontab.Schedule duration { job := job, cancel := w.nextCtx }).1)).1.done ↔
        ctx ∈ w1.done ∨ ctx = w.nextCtx := by
  have hA := Atoi_Itoa (crontab.nextID + 1) hlo hhi
  simp only [StartJobEvery, hc, Cron.Schedule]
  refine ⟨_, rfl, hA, by simp, rfl, ?_, ?_⟩
  · simp [StopJob, hA]
  · intro ctx
    simp [StopJob, hA, mem_cancelCtx]

/-- Witness of C3 on a new scheduler: the job gets the identifier 1, returned
as `"1"`, and StopJob on it cancels the context 0 and nothing else. -/
theorem StartJobEvery_StopJob_roundtrip_witness :
    NewScheduler.s.crontab = some Cron.New.Start ∧
    minInt ≤ Cron.New.Start.nextID + 1 ∧ Cron.New.Start.nextID + 1 ≤ maxInt ∧
    StartJobEvery NewScheduler 10 demoJob = some ("1", demoWorld) ∧
    (StopJob demoWorld "1").2 = none ∧
    (StopJob demoWorld "1").1.done = [0] ∧
    ∃ w1,
      StartJobEvery NewScheduler 10 demoJob =
        some (Itoa (Cron.New.Start.Schedule 10 { job := demoJob, cancel := 0 }).1, w1) ∧
      Atoi (Itoa (Cron.New.Start.Schedule 10 { job := demoJob, cancel := 0 }).1) =
        Except.ok (Cron.New.Start.Schedule 10 { job := demoJob, cancel := 0 }).1 ∧
      w1.s.activeJobs (Cron.New.Start.Schedule 10 { job := demoJob, cancel := 0 }).1 =
        some 0 ∧
      w1.done = [] ∧
      (StopJob w1 (Itoa (Cron.New.Start.Schedule 10 { job := demoJob, cancel := 0 }).1)).2 =
        none ∧
      ∀ ctx,
        ctx ∈ (StopJob w1
          (Itoa (Cron.New.Start.Schedule 10 { job := demoJob, cancel := 0 }).1)).1.done ↔
        ctx ∈ w1.done ∨ ctx = 0 :=
  ⟨rfl, by decide, by decide, rfl, rfl, rfl,
    StartJobEvery_StopJob_roundtrip NewScheduler Cron.New.Start 10 demoJob rfl
      (by decide) (by decide)⟩

/-! ## C4 -/

/-- C4: for every state and every well-formed identifier, StopJob returns no
error, a second StopJob with the same identifier returns no error and leaves
the whole state exactly as the first call left it, and StopJob for a job whose
context is already cancelled, for instance by a permanent failure, leaves the
state unchanged.  StopJob itself removes nothing from the engine, the registry
or the parked watchers; in a reachable state, once the watcher of a job has run
after the two calls, it can run in no later state, so the job is removed from
the engine at most once. -/
theorem StopJob_idempotent (w : World) (jobID : String)
    (hwf : isDecimalIdentifier jobID = true) :
    (StopJob w jobID).2 = none ∧
    StopJob (StopJob w jobID).1 jobID = ((StopJob w jobID).1, none) ∧
    (∀ id ctx, Atoi jobID = Except.ok id → w.s.activeJobs id = some ctx → ctx ∈ w.done →
      StopJob w jobID = (w, none)) ∧
    (StopJob w jobID).1.s = w.s ∧ (StopJob w jobID).1.watchers = w.watchers ∧
    (Reachable w → ∀ ctx id w1,
      watcher (StopJob (StopJob w jobID).1 jobID).1 ctx id = some w1 →
      ∀ acts w2, run w1 acts = some w2 → watcher w2 ctx id = none) := by
  have hok := (Atoi_ok_iff jobID).2 hwf
  have hframe := StopJob_frame w jobID
  have honce : Reachable w → ∀ ctx id w1,
      watcher (StopJob (StopJob w jobID).1 jobID).1 ctx id = some w1 →
      ∀ acts w2, run w1 acts = some w2 → watcher w2 ctx id = none := by
    intro hreach ctx id w1 hw1 acts w2 hr
    have hr1 : Reachable (StopJob w jobID).1 :=
      Reachable_step w _ (Action.stop jobID) hreach rfl
    have hr2 : Reachable (StopJob (StopJob w jobID).1 jobID).1 :=
      Reachable_step _ _ (Action.stop jobID) hr1 rfl
    have hret := Retired_of_watcher _ w1 ctx id (WatchInv_of_Reachable _ hr2) hw1
    exact watcher_none_of_Retired w2 ctx id (Retired_run acts w1 w2 ctx id hret hr)
  cases hA : Atoi jobID with
  | error err => simp [hA, isOk] at hok
  | ok id =>
    refine ⟨?_, ?_, ?_, hframe.1, hframe.2.1, honce⟩
    · cases ha : w.s.activeJobs id <;> simp [StopJob, hA, ha]
    · cases ha : w.s.activeJobs id <;> simp [StopJob, hA, ha, cancelCtx_idem]
    · intro id' ctx hid hctx hmem
      cases hid
      simp [StopJob, hA, hctx, cancelCtx_of_mem _ _ hmem]

/-- Witness of C4 on the job `"1"` of `demoWorld`: the first StopJob cancels the
context 0, the second changes nothing. -/
theorem StopJob_idempotent_witness :
    isDecimalIdentifier "1" = true ∧
    (StopJob demoWorld "1").1.done = [0] ∧
    (StopJob (StopJob demoWorld "1").1 "1").1.done = [0] ∧
    (StopJob demoWorld "1").2 = none ∧
    StopJob (StopJob demoWorld "1").1 "1" = ((StopJob demoWorld "1").1, none) :=
  ⟨by decide, rfl, rfl, (StopJob_idempotent demoWorld "1" (by decide)).1,
    (StopJob_idempotent demoWorld "1" (by decide)).2.1⟩

/-! ## C5 -/

/-- C5: in every state reachable from NewScheduler through StartJobEvery,
StopJob, Shutdown, engine ticks and watcher steps, after Shutdown every context
held in the active-jobs registry is cancelled. -/
theorem Shutdown_cancels_registry (w : World) (stopErr : Option GoError)
    (hreach : Reachable w) (id : Int) (ctx : Nat)
    (hreg : (Shutdown w stopErr).1.s.activeJobs id = some ctx) :
    ctx ∈ (Shutdown w stopErr).1.done := by
  obtain ⟨c, hc, -, -, h3⟩ := Inv_of_Reachable w hreach
  simp only [Shutdown, hc] at hreg ⊢
  rcases h3 id ctx hreg with hd | hm
  · exact mem_cancelEntries_of_mem _ _ _ _ hd
  · exact mem_cancelEntries_of_entry _ _ _ id ctx hm hreg

/-- Witness of C5 on `demoWorld`, whose one job is registered and not yet
cancelled: Shutdown cancels its context 0. -/
theorem Shutdown_cancels_registry_witness :
    Reachable demoWorld ∧
    (Shutdown demoWorld (some GoError.canceled)).1.s.activeJobs 1 = some 0 ∧
    (0 : Nat) ∉ demoWorld.done ∧
    (0 : Nat) ∈ (Shutdown demoWorld (some GoError.canceled)).1.done :=
  ⟨⟨[Action.start 10 demoJob], rfl⟩, rfl, by decide,
    Shutdown_cancels_registry demoWorld (some GoError.canceled)
      ⟨[Action.start 10 demoJob], rfl⟩ 1 0 rfl⟩

/-! ## C6 -/

/-- C6, evaluated on the code: Shutdown leaves the engine handle set, so a
second Shutdown does not take the guard.  On a new scheduler, after Shutdown
the handle still holds the (stopped) engine; a job started then has its context
0 uncancelled, and the second Shutdown cancels it. -/
theorem Shutdown_twice_skips_guard :
    ((Shutdown NewScheduler (some GoError.canceled)).1.s.crontab.map fun c => c.running) =
      some false ∧
    ((run NewScheduler [Action.shutdown (some GoError.canceled),
        Action.start 10 demoJob]).map fun w => w.done) = some [] ∧
    ((run NewScheduler [Action.shutdown (some GoError.canceled),
        Action.start 10 demoJob,
        Action.shutdown (some GoError.canceled)]).map fun w => w.done) = some [0] := by
  refine ⟨rfl, rfl, rfl⟩

/-! ## C7 -/

/-- C7: when the engine handle is set, Shutdown returns nil if the completion
error of the engine's stop signal is `context.Canceled` (possibly wrapped) and
returns that completion error itself otherwise. -/
theorem Shutdown_error (w : World) (crontab : Cron) (stopErr : Option GoError)
    (hc : w.s.crontab = some crontab) :
    (isContextCanceled stopErr = true → (Shutdown w stopErr).2 = none) ∧
    (isContextCanceled stopErr = false → (Shutdown w stopErr).2 = stopErr) := by
  simp only [Shutdown, hc]
  constructor
  · intro h
    simp [h]
  · intro h
    simp [h]

/-- Witness of C7 on `demoWorld`: a wrapped `context.Canceled` is mapped to nil. -/
theorem Shutdown_error_witness :
    demoWorld.s.crontab = some demoCron ∧
    isContextCanceled (some (GoError.wrap "stop" GoError.canceled)) = true ∧
    (Shutdown demoWorld (some (GoError.wrap "stop" GoError.canceled))).2 = none :=
  ⟨rfl, rfl,
    (Shutdown_error demoWorld demoCron (some (GoError.wrap "stop" GoError.canceled)) rfl).1 rfl⟩

/-! ## C8 -/

/-- C8 as stated fails: after `StartJobEvery`, `StopJob("1")` and the watcher's
step, the context 0 is cancelled and the engine holds no entry, but the
registry still maps the identifier 1 to the context 0. -/
theorem watcher_leaves_registry_entry :
    ((run NewScheduler [Action.start 10 demoJob, Action.stop "1", Action.watch 0 1]).map
      fun w => (w.done, engineIDs w, w.watchers, w.s.activeJobs 1)) =
      some ([0], [], [], some 0) := by
  rfl

/-- C8, amended: in every reachable state, a parked watcher whose context has
been cancelled can run, and once it has run the job's entry is absent from the
trigger engine, while the registry still holds the job's context under its
identifier. -/
theorem watcher_removes_entry (w : World) (ctx : Nat) (id : Int) (hreach : Reachable w)
    (hw : (ctx, id) ∈ w.watchers) (hd : ctx ∈ w.done) :
    ∃ w', watcher w ctx id = some w' ∧ id ∉ engineIDs w' ∧
      w'.s.activeJobs = w.s.activeJobs ∧ w'.s.activeJobs id = some ctx := by
  obtain ⟨c, hc, -, h2, -⟩ := Inv_of_Reachable w hreach
  obtain ⟨-, ha⟩ := h2 (ctx, id) hw
  simp only [watcher, hc, hw, hd, and_self, if_true]
  refine ⟨_, rfl, ?_, rfl, ha⟩
  simp [engineIDs, Cron.Remove, Cron.Entries]

/-- Witness of the amended C8 on `stoppedWorld`. -/
theorem watcher_removes_entry_witness :
    Reachable stoppedWorld ∧ ((0 : Nat), (1 : Int)) ∈ stoppedWorld.watchers ∧
    (0 : Nat) ∈ stoppedWorld.done ∧
    ∃ w', watcher stoppedWorld 0 1 = some w' ∧ (1 : Int) ∉ engineIDs w' ∧
      w'.s.activeJobs = stoppedWorld.s.activeJobs ∧ w'.s.activeJobs 1 = some 0 :=
  ⟨Reachable_stoppedWorld, by decide, by decide,
    watcher_removes_entry stoppedWorld 0 1 Reachable_stoppedWorld (by decide) (by decide)⟩

/-! ## C9 -/

/-- C9, evaluated on the code: a job that returns an ordinary (not permanent)
error on every run is run again.  After three ticks it has been invoked three
times, its context 0 is not cancelled and its entry is still in the engine. -/
theorem transient_error_keeps_job :
    ((run NewScheduler [Action.start 10 flakyJob, Action.tick 1, Action.tick 1,
        Action.tick 1]).map fun w => (w.invoked.count 1, w.done, engineIDs w)) =
      some (3, [], [1]) := by
  rfl

/-! ## C10 -/

/-- C10, evaluated on the code: a job failing permanently on its first
invocation has its context 0 cancelled after the first tick, yet a second tick
before the watcher's step invokes it again (2 invocations, N = 1); likewise
after `StopJob("1")` has returned, with the context 0 cancelled, a tick before
the watcher's step still invokes the job. -/
theorem tick_after_cancel_invokes :
    ((run NewScheduler [Action.start 10 failingJob, Action.tick 1]).map
      fun w => (w.invoked.count 1, w.done)) = some (1, [0]) ∧
    ((run NewScheduler [Action.start 10 failingJob, Action.tick 1, Action.tick 1]).map
      fun w => (w.invoked.count 1, w.done)) = some (2, [0]) ∧
    ((run NewScheduler [Action.start 10 (fun _ => none), Action.stop "1"]).map
      fun w => (w.invoked.count 1, w.done)) = some (0, [0]) ∧
    ((run NewScheduler [Action.start 10 (fun _ => none), Action.stop "1", Action.tick 1]).map
      fun w => (w.invoked.count 1, w.done)) = some (1, [0]) := by
  refine ⟨rfl, rfl, rfl, rfl⟩

/-- Where the engine does stop a job: in every reachable state, once a job's
context has been cancelled and its watcher has run, no execution of
StartJobEvery, StopJob, Shutdown, tick and watcher steps begins a new
invocation of the job: the number of its invocations stays what it was when
the watcher ran. -/
theorem no_invocation_after_watcher (w : World) (ctx : Nat) (id : Int) (hreach : Reachable w)
    (hw : (ctx, id) ∈ w.watchers) (hd : ctx ∈ w.done) :
    ∃ w1, watcher w ctx id = some w1 ∧ w1.invoked.count id = w.invoked.count id ∧
      ∀ acts w2, run w1 acts = some w2 → w2.invoked.count id = w.invoked.count id := by
  obtain ⟨w1, h1, hrem, -, -⟩ := watcher_spec w ctx id hreach hw hd
  have hcount : w1.invoked.count id = w.invoked.count id := by
    obtain ⟨c, hc, -⟩ := Inv_of_Reachable w hreach
    simp only [watcher, hc, hw, hd, and_self, if_true, Option.some.injEq] at h1
    rw [← h1]
  refine ⟨w1, h1, hcount, ?_⟩
  intro acts w2 hr
  rw [Removed_run acts w1 w2 id hrem hr, hcount]

/-- The fact `no_invocation_after_watcher` on `stoppedWorld`: after the watcher's
step no run begins an invocation of the entry 1. -/
theorem no_invocation_after_watcher_demo :
    Reachable stoppedWorld ∧ ((0 : Nat), (1 : Int)) ∈ stoppedWorld.watchers ∧
    (0 : Nat) ∈ stoppedWorld.done ∧
    ∃ w1, watcher stoppedWorld 0 1 = some w1 ∧
      w1.invoked.count 1 = stoppedWorld.invoked.count 1 ∧
      ∀ acts w2, run w1 acts = some w2 → w2.invoked.count 1 = stoppedWorld.invoked.count 1 :=
  ⟨Reachable_stoppedWorld, by decide, by decide,
    no_invocation_after_watcher stoppedWorld 0 1 Reachable_stoppedWorld (by decide) (by decide)⟩

end scheduler
